import Mathlib

/-!
Shallow embedding of `bulk_visit_performance.cpp`: a micro-benchmark harness
comparing single-key visitation (`regular_visitor`) against batched visitation
(`bulk_visitor`) over a concurrent map.

Modelling conventions:
* wall-clock times and trial averages are rationals (the source uses
  `double`; all values appearing in the verified properties are exact);
* 64-bit machine integers are naturals reduced modulo `2 ^ 64`;
* the container (`boost::concurrent_flat_map`) is an external collaborator;
  per its documented interface, single-key `visit` reports presence (0 or 1)
  and ranged `visit` reports the number of present keys in the range, so the
  map is embedded as a membership predicate `ℤ → Bool`;
* `std::uniform_int_distribution<int>{lo, hi}` draws uniformly from the
  closed interval `[lo, hi]`; it is embedded as a standard-conforming
  implementation reducing one 64-bit engine draw modulo the range size.
-/

/-! ### Trial aggregation (`measure`, lines 39-41)

`std::sort(trials.begin(), trials.end());
 return std::accumulate(trials.begin()+2, trials.end()-2, 0.0)/(trials.size()-4);` -/

/-- Number of trials per measurement (`num_trials = 10`). -/
def num_trials : ℕ := 10

/-- The aggregation step of `measure`: sort the trial averages ascending and
return the arithmetic mean of the values with the first two and last two
discarded. -/
def measure_aggregate (trials : List ℚ) : ℚ :=
  let s := trials.mergeSort (fun a b => a ≤ b)
  ((s.drop 2).take (s.length - 4)).sum / ((s.length - 4 : ℕ) : ℚ)

/-! ### Clock state (`measure_start`, `measure_pause`, `pause_timing`,
`resume_timing`, lines 14 and 44-52) -/

/-- The process-scoped clock state: the trial origin `measure_start` and the
pause timestamp `measure_pause`. -/
structure ClockState where
  measure_start : ℚ
  measure_pause : ℚ

/-- `pause_timing`, called when the wall clock reads `now`:
`measure_pause = high_resolution_clock::now();`. -/
def pause_timing (now : ℚ) (st : ClockState) : ClockState :=
  { st with measure_pause := now }

/-- `resume_timing`, called when the wall clock reads `now`:
`measure_start += high_resolution_clock::now() - measure_pause;`. -/
def resume_timing (now : ℚ) (st : ClockState) : ClockState :=
  { st with measure_start := st.measure_start + (now - st.measure_pause) }

/-- An elapsed-time reading `t2 - measure_start` at wall-clock time `now`. -/
def elapsed_reading (now : ℚ) (st : ClockState) : ℚ :=
  now - st.measure_start

/-! ### The per-trial timing loop (`measure`, lines 25-37)

One trial runs `do { res=f(); ++runs; t2=now(); } while (t2-measure_start <
min_time_per_trial);`.  The wall clock is modelled by a function
`t : ℕ → ℚ`: `t n` is the `now()` reading taken right after the `n`-th
execution of `f` (`n ≥ 1`), and `start` is the reading stored in
`measure_start` when the trial began.  The loop is embedded with explicit
fuel; `none` means the fuel was exhausted before the loop exited. -/

/-- Minimum duration of one trial, in milliseconds
(`min_time_per_trial(200)`). -/
def min_time_per_trial : ℚ := 200

/-- The do-while loop body of one `measure` trial: `runs` executions of `f`
have happened so far; execute `f` once more, then test the loop condition. -/
def trial_loop (t : ℕ → ℚ) (start minT : ℚ) : ℕ → ℕ → Option ℕ
  | 0, _ => none
  | fuel + 1, runs =>
    let runs' := runs + 1
    if t runs' - start < minT then trial_loop t start minT fuel runs'
    else some runs'

/-- The run count recorded by one trial of `measure` (the value of `runs`
when the do-while loop exits). -/
def trial_runs (t : ℕ → ℚ) (start : ℚ) (fuel : ℕ) : Option ℕ :=
  trial_loop t start min_time_per_trial fuel 0

theorem trial_loop_spec (t : ℕ → ℚ) (start minT : ℚ) :
    ∀ fuel r0 runs, trial_loop t start minT fuel r0 = some runs →
      r0 + 1 ≤ runs ∧ minT ≤ t runs - start := by
  intro fuel
  induction fuel with
  | zero => intro r0 runs h; simp [trial_loop] at h
  | succ n ih =>
    intro r0 runs h
    simp only [trial_loop] at h
    by_cases hc : t (r0 + 1) - start < minT
    · rw [if_pos hc] at h
      have := ih (r0 + 1) runs h
      exact ⟨by omega, this.2⟩
    · rw [if_neg hc] at h
      cases h
      exact ⟨le_refl _, not_lt.mp hc⟩

/-- C6: in every trial of `measure`, the do-while loop executes the candidate
at least once (`runs ≥ 1`), exits only once the elapsed time reaches
`min_time_per_trial` (200 ms), and hence the recorded run count times the
recorded per-call average is at least 200 ms. -/
theorem trial_loop_min_duration (t : ℕ → ℚ) (start : ℚ) (fuel runs : ℕ)
    (h : trial_runs t start fuel = some runs) :
    1 ≤ runs ∧ min_time_per_trial ≤ t runs - start ∧
      min_time_per_trial ≤ (runs : ℚ) * ((t runs - start) / runs) := by
  obtain ⟨h1, h2⟩ := trial_loop_spec t start min_time_per_trial fuel 0 runs h
  refine ⟨h1, h2, ?_⟩
  have hr : (runs : ℚ) ≠ 0 := Nat.cast_ne_zero.mpr (by omega)
  rw [mul_div_cancel₀ _ hr]
  exact h2

/-- Witness for `trial_loop_min_duration`: with a clock that advances 300 ms
per execution, the trial loop exits after a single run. -/
theorem trial_loop_min_duration_witness :
    1 ≤ 1 ∧ min_time_per_trial ≤ (fun n : ℕ => (300 : ℚ) * n) 1 - 0 ∧
      min_time_per_trial ≤
        ((1 : ℕ) : ℚ) * (((fun n : ℕ => (300 : ℚ) * n) 1 - 0) / (1 : ℕ)) :=
  trial_loop_min_duration (fun n : ℕ => (300 : ℚ) * n) 0 5 1 (by
    simp [trial_runs, trial_loop, min_time_per_trial]
    norm_num)

/-- C7: pausing at time `p` and resuming at time `r ≥ p` moves the trial
origin forward by exactly the paused interval `r - p`, so every subsequent
elapsed-time reading excludes exactly that interval. -/
theorem resume_timing_excludes_pause (st : ClockState) (p r : ℚ) (h : p ≤ r) :
    (resume_timing r (pause_timing p st)).measure_start =
        st.measure_start + (r - p) ∧
      ∀ t, elapsed_reading t (resume_timing r (pause_timing p st)) =
        elapsed_reading t st - (r - p) := by
  constructor
  · simp [resume_timing, pause_timing]
  · intro t
    simp [resume_timing, pause_timing, elapsed_reading]
    ring

/-- Witness for `resume_timing_excludes_pause` at a concrete clock state,
pausing at time 7 and resuming at time 9. -/
theorem resume_timing_excludes_pause_witness :
    (resume_timing 9 (pause_timing 7 ⟨5, 0⟩)).measure_start =
        (5 : ℚ) + (9 - 7) ∧
      ∀ t, elapsed_reading t (resume_timing 9 (pause_timing 7 ⟨5, 0⟩)) =
        elapsed_reading t ⟨5, 0⟩ - (9 - 7) :=
  resume_timing_excludes_pause ⟨5, 0⟩ 7 9 (by norm_num)

theorem measure_aggregate_perm (l l' : List ℚ) (h : l.Perm l') :
    measure_aggregate l = measure_aggregate l' := by
  have hs : l.mergeSort (fun a b => a ≤ b) = l'.mergeSort (fun a b => a ≤ b) :=
    List.eq_of_perm_of_sorted
      ((List.mergeSort_perm l _).trans (h.trans (List.mergeSort_perm l' _).symm))
      (List.sorted_mergeSort' l) (List.sorted_mergeSort' l')
  simp only [measure_aggregate, hs]

/-- C2: the aggregation step of `measure` sorts the ten trial averages
ascending, discards the two smallest and two largest, and returns the
arithmetic mean of the remaining six; on any reordering of
`[1,2,3,4,5,6,7,8,9,100]` it returns exactly `5.5`. -/
theorem trimmed_mean_example (l : List ℚ)
    (h : l.Perm [1, 2, 3, 4, 5, 6, 7, 8, 9, 100]) :
    measure_aggregate l = 11 / 2 := by
  rw [measure_aggregate_perm l [1, 2, 3, 4, 5, 6, 7, 8, 9, 100] h]
  have hs : ([1, 2, 3, 4, 5, 6, 7, 8, 9, 100] : List ℚ).mergeSort
      (fun a b => a ≤ b) = [1, 2, 3, 4, 5, 6, 7, 8, 9, 100] := by
    apply List.eq_of_perm_of_sorted (List.mergeSort_perm _ _)
      (List.sorted_mergeSort' _)
    simp only [List.sorted_cons, List.mem_cons]
    norm_num
  simp only [measure_aggregate, hs]
  norm_num

/-- Witness for `trimmed_mean_example`: a concrete shuffling of the ten
synthetic trial averages. -/
theorem trimmed_mean_example_witness :
    measure_aggregate [100, 9, 1, 8, 2, 7, 3, 6, 4, 5] = 11 / 2 :=
  trimmed_mean_example [100, 9, 1, 8, 2, 7, 3, 6, 4, 5] (by decide)

/-! ### Key generation (`splitmix64_urng`, lines 111-119, and
`std::uniform_int_distribution<>`, line 129)

`boost::detail::splitmix64` keeps a 64-bit state `x`; each call does
`x += 0x9E3779B97F4A7C15` and returns a mixed function of the new state.
64-bit words are naturals reduced modulo `2 ^ 64`. -/

/-- `2 ^ 64`, the modulus of 64-bit machine arithmetic. -/
def word64 : ℕ := 2 ^ 64

/-- The output mixing function of `boost::detail::splitmix64`:
`z = (z ^ (z >> 30)) * 0xBF58476D1CE4E5B9;
 z = (z ^ (z >> 27)) * 0x94D049BB133111EB;
 return z ^ (z >> 31);`. -/
def splitmix64_mix (x : ℕ) : ℕ :=
  let z1 := ((x ^^^ (x >>> 30)) * 0xBF58476D1CE4E5B9) % word64
  let z2 := ((z1 ^^^ (z1 >>> 27)) * 0x94D049BB133111EB) % word64
  z2 ^^^ (z2 >>> 31)

/-- One step of `splitmix64::operator()`: advance the state by the golden
ratio increment and mix; returns (output, new state). -/
def splitmix64_next (x : ℕ) : ℕ × ℕ :=
  let x' := (x + 0x9E3779B97F4A7C15) % word64
  (splitmix64_mix x', x')

/-- `std::uniform_int_distribution<int>{lo, hi}` applied to one generator
draw.  The C++ standard specifies only that results are uniformly
distributed over the closed interval `[lo, hi]`; we embed the
standard-conforming implementation that reduces one 64-bit engine draw
modulo the range size.  Returns (value, new generator state). -/
def dist_draw (lo hi : ℤ) (g : ℕ) : ℤ × ℕ :=
  let o := splitmix64_next g
  (lo + ((o.1 % (hi + 1 - lo).toNat : ℕ) : ℤ), o.2)

/-- The stream of `n` keys obtained by repeatedly calling `dist(gen)`
starting from generator state `g`. -/
def key_stream (lo hi : ℤ) (g : ℕ) : ℕ → List ℤ
  | 0 => []
  | n + 1 => (dist_draw lo hi g).1 :: key_stream lo hi (dist_draw lo hi g).2 n

/-- The seed `282472u` with which `visit_tester::operator()` constructs its
generator on every invocation (line 131). -/
def benchmark_seed : ℕ := 282472

/-! ### Container interface (external collaborator)

`boost::concurrent_flat_map` is external to this repository.  Its documented
interface: single-key `visit(k, cb)` returns whether `k` is present (0 or 1),
and ranged `visit(first, last, cb)` returns the number of present keys in the
range.  The map is therefore embedded as a membership predicate. -/

/-- `(int)m.visit(k, noop)`: 1 if `k` is present in the map, else 0. -/
def visit_one (m : ℤ → Bool) (k : ℤ) : ℤ :=
  if m k then 1 else 0

/-- `(int)m.visit(first, last, noop)`: the number of keys of the range that
are present in the map. -/
def visit_bulk (m : ℤ → Bool) (ks : List ℤ) : ℤ :=
  (ks.countP m : ℤ)

/-! ### `regular_visitor` (lines 60-79)

`operator()(gen) { res += (int)m.visit(dist(gen), noop); }`; `flush()` is a
no-op.  The `drawn` field is ghost instrumentation recording each value
returned by `dist(gen)`, used to state determinism properties. -/

/-- State of a `regular_visitor`: the hit-count accumulator `res`, plus the
ghost trace `drawn` of all keys drawn so far. -/
structure RegularVisitor where
  res : ℤ
  drawn : List ℤ

/-- A freshly constructed `regular_visitor` (`res = 0`). -/
def regular_init : RegularVisitor := ⟨0, []⟩

/-- `regular_visitor::operator()` applied to a key already drawn from the
distribution. -/
def regular_push (m : ℤ → Bool) (r : RegularVisitor) (k : ℤ) : RegularVisitor :=
  ⟨r.res + visit_one m k, r.drawn ++ [k]⟩

/-- `regular_visitor::operator()(gen)` as a transformer of
(visitor state, generator state). -/
def regular_step (m : ℤ → Bool) (lo hi : ℤ) (s : RegularVisitor × ℕ) :
    RegularVisitor × ℕ :=
  let d := dist_draw lo hi s.2
  (regular_push m s.1 d.1, d.2)

/-- Processing a list of already-drawn keys through `regular_visitor`. -/
def regular_proc (m : ℤ → Bool) (r : RegularVisitor) (ks : List ℤ) :
    RegularVisitor :=
  ks.foldl (regular_push m) r

/-! ### `bulk_visitor` (lines 81-109)

`operator()(gen) { keys[i++] = dist(gen); if (i == N) flush(); }` and
`flush() { res += (int)m.visit(keys.begin(), keys.begin()+i, noop); i = 0; }`.
The buffer `keys[0..i)` is embedded as the list `buf` (so the cursor `i` is
`buf.length`); the capacity `N = Map::bulk_visit_size` is the parameter `C`.
The `drawn` and `calls` fields are ghost instrumentation: `drawn` records each
value returned by `dist(gen)`, and `calls` records the key range of every
ranged `m.visit` call issued. -/

/-- State of a `bulk_visitor`: hit-count accumulator `res` and pending
buffer `buf`, plus ghost traces `drawn` and `calls`. -/
structure BulkVisitor where
  res : ℤ
  buf : List ℤ
  drawn : List ℤ
  calls : List (List ℤ)

/-- A freshly constructed `bulk_visitor` (`res = 0`, `i = 0`). -/
def bulk_init : BulkVisitor := ⟨0, [], [], []⟩

/-- `bulk_visitor::flush()`: issue one ranged visit over `keys[0..i)`
(also when the buffer is empty) and reset the cursor. -/
def bulk_flush (m : ℤ → Bool) (v : BulkVisitor) : BulkVisitor :=
  ⟨v.res + visit_bulk m v.buf, [], v.drawn, v.calls ++ [v.buf]⟩

/-- `bulk_visitor::operator()` applied to a key already drawn from the
distribution: append to the buffer, and flush when it reaches capacity. -/
def bulk_push (m : ℤ → Bool) (C : ℕ) (v : BulkVisitor) (k : ℤ) : BulkVisitor :=
  let v' : BulkVisitor := ⟨v.res, v.buf ++ [k], v.drawn ++ [k], v.calls⟩
  if v'.buf.length = C then bulk_flush m v' else v'

/-- `bulk_visitor::operator()(gen)` as a transformer of
(visitor state, generator state). -/
def bulk_step (m : ℤ → Bool) (C : ℕ) (lo hi : ℤ) (s : BulkVisitor × ℕ) :
    BulkVisitor × ℕ :=
  let d := dist_draw lo hi s.2
  (bulk_push m C s.1 d.1, d.2)

/-- Processing a list of already-drawn keys through `bulk_visitor`. -/
def bulk_proc (m : ℤ → Bool) (C : ℕ) (v : BulkVisitor) (ks : List ℤ) :
    BulkVisitor :=
  ks.foldl (bulk_push m C) v

/-! ### `visit_tester` (lines 121-138)

`operator()(m, N) { splitmix64_urng gen(282472u);
 Visitor visit{m, distribution_type{0, 2*N-1}};
 for (int i = 0; i < N; ++i) visit(gen); visit.flush(); return visit.res; }` -/

/-- `n`-fold iteration of a state transformer (the tester's `for` loop). -/
def iter_steps {σ : Type} (f : σ → σ) : ℕ → σ → σ
  | 0, s => s
  | n + 1, s => iter_steps f n (f s)

/-- `visit_tester<regular_visitor>::operator()(m, N)`: the final visitor
state after `N` generator-driven visits and the trailing (no-op) flush. -/
def regular_visit_tester (m : ℤ → Bool) (N : ℕ) : RegularVisitor :=
  (iter_steps (regular_step m 0 (2 * (N : ℤ) - 1)) N
    (regular_init, benchmark_seed)).1

/-- `visit_tester<bulk_visitor>::operator()(m, N)` with buffer capacity `C`:
the final visitor state after `N` generator-driven visits followed by the
trailing explicit flush. -/
def bulk_visit_tester (m : ℤ → Bool) (C N : ℕ) : BulkVisitor :=
  bulk_flush m
    (iter_steps (bulk_step m C 0 (2 * (N : ℤ) - 1)) N
      (bulk_init, benchmark_seed)).1

/-! ### Bridging lemmas: generator-driven runs as runs over the key stream -/

theorem iter_regular (m : ℤ → Bool) (lo hi : ℤ) :
    ∀ (n : ℕ) (r : RegularVisitor) (g : ℕ),
      (iter_steps (regular_step m lo hi) n (r, g)).1 =
        regular_proc m r (key_stream lo hi g n) := by
  intro n
  induction n with
  | zero => intro r g; rfl
  | succ n ih =>
    intro r g
    simp only [iter_steps, regular_step, key_stream, regular_proc,
      List.foldl_cons]
    exact ih _ _

theorem iter_bulk (m : ℤ → Bool) (C : ℕ) (lo hi : ℤ) :
    ∀ (n : ℕ) (v : BulkVisitor) (g : ℕ),
      (iter_steps (bulk_step m C lo hi) n (v, g)).1 =
        bulk_proc m C v (key_stream lo hi g n) := by
  intro n
  induction n with
  | zero => intro v g; rfl
  | succ n ih =>
    intro v g
    simp only [iter_steps, bulk_step, key_stream, bulk_proc, List.foldl_cons]
    exact ih _ _

/-! ### Behaviour of the visitors on a list of drawn keys -/

theorem regular_proc_res (m : ℤ → Bool) :
    ∀ (ks : List ℤ) (r : RegularVisitor),
      (regular_proc m r ks).res = r.res + (ks.countP m : ℤ) := by
  intro ks
  induction ks with
  | nil => intro r; simp [regular_proc]
  | cons k ks ih =>
    intro r
    simp only [regular_proc, List.foldl_cons] at ih ⊢
    rw [ih]
    simp only [regular_push, visit_one, List.countP_cons]
    cases hm : m k <;> simp [hm] <;> push_cast <;> ring

theorem regular_proc_drawn (m : ℤ → Bool) :
    ∀ (ks : List ℤ) (r : RegularVisitor),
      (regular_proc m r ks).drawn = r.drawn ++ ks := by
  intro ks
  induction ks with
  | nil => intro r; simp [regular_proc]
  | cons k ks ih =>
    intro r
    simp only [regular_proc, List.foldl_cons] at ih ⊢
    rw [ih]
    simp [regular_push]

theorem bulk_push_cases (m : ℤ → Bool) (C : ℕ) (v : BulkVisitor) (k : ℤ) :
    bulk_push m C v k =
      if v.buf.length + 1 = C then
        ⟨v.res + visit_bulk m (v.buf ++ [k]), [], v.drawn ++ [k],
          v.calls ++ [v.buf ++ [k]]⟩
      else ⟨v.res, v.buf ++ [k], v.drawn ++ [k], v.calls⟩ := by
  simp [bulk_push, bulk_flush, List.length_append]

theorem bulk_proc_drawn (m : ℤ → Bool) (C : ℕ) :
    ∀ (ks : List ℤ) (v : BulkVisitor),
      (bulk_proc m C v ks).drawn = v.drawn ++ ks := by
  intro ks
  induction ks with
  | nil => intro v; simp [bulk_proc]
  | cons k ks ih =>
    intro v
    simp only [bulk_proc, List.foldl_cons] at ih ⊢
    rw [bulk_push_cases]
    split_ifs <;> rw [ih] <;> simp

theorem bulk_flush_proc_res (m : ℤ → Bool) (C : ℕ) (hC : 1 ≤ C) :
    ∀ (ks : List ℤ) (v : BulkVisitor), v.buf.length < C →
      (bulk_flush m (bulk_proc m C v ks)).res =
        v.res + visit_bulk m (v.buf ++ ks) := by
  intro ks
  induction ks with
  | nil => intro v hv; simp [bulk_proc, bulk_flush]
  | cons k ks ih =>
    intro v hv
    simp only [bulk_proc, List.foldl_cons] at ih ⊢
    rw [bulk_push_cases]
    split_ifs with hfull
    · rw [ih _ (by simpa using hC)]
      simp only [visit_bulk, List.countP_append, List.countP_cons,
        List.nil_append, List.countP_nil]
      push_cast
      ring
    · rw [ih _ (by simp only [List.length_append, List.length_cons,
        List.length_nil]; omega)]
      simp [List.append_assoc]

/-! ### Per-run key traces -/

theorem regular_tester_drawn (m : ℤ → Bool) (N : ℕ) :
    (regular_visit_tester m N).drawn =
      key_stream 0 (2 * (N : ℤ) - 1) benchmark_seed N := by
  rw [regular_visit_tester, iter_regular, regular_proc_drawn]
  simp [regular_init]

theorem bulk_tester_drawn (m : ℤ → Bool) (C N : ℕ) :
    (bulk_visit_tester m C N).drawn =
      key_stream 0 (2 * (N : ℤ) - 1) benchmark_seed N := by
  rw [bulk_visit_tester, iter_bulk]
  show (bulk_proc m C bulk_init _).drawn = _
  rw [bulk_proc_drawn]
  simp [bulk_init]

/-- C1: for every map, every buffer capacity `C ≥ 1` and every size `N ≥ 1`,
the final hit count returned by `visit_tester` using `regular_visitor` equals
the one returned using `bulk_visitor`: both draw the same `N`-key sequence
from the identically seeded generator, and batching does not change which
keys are counted as present. -/
theorem regular_bulk_hit_count_eq (m : ℤ → Bool) (C N : ℕ)
    (hC : 1 ≤ C) (hN : 1 ≤ N) :
    (regular_visit_tester m N).res = (bulk_visit_tester m C N).res := by
  rw [regular_visit_tester, bulk_visit_tester, iter_regular, iter_bulk,
    regular_proc_res,
    bulk_flush_proc_res m C hC _ bulk_init (by simp [bulk_init]; omega)]
  simp [regular_init, bulk_init, visit_bulk]

/-- Witness for `regular_bulk_hit_count_eq`: capacity 2, size 3, dataset
`{0, 1, 2}`. -/
theorem regular_bulk_hit_count_eq_witness :
    1 ≤ 2 ∧ 1 ≤ 3 ∧
      (regular_visit_tester (fun k => decide (0 ≤ k ∧ k < 3)) 3).res =
        (bulk_visit_tester (fun k => decide (0 ≤ k ∧ k < 3)) 2 3).res :=
  ⟨by decide, by decide,
    regular_bulk_hit_count_eq (fun k => decide (0 ≤ k ∧ k < 3)) 2 3
      (by decide) (by decide)⟩

/-- C5: every invocation of `visit_tester::operator()` constructs its
generator with the same fixed seed, so the drawn key sequence is a function
of `N` alone: it is identical across repeated runs, identical between the
single-key and the batched strategy, and independent of the dataset. -/
theorem key_sequence_deterministic (m₁ m₂ : ℤ → Bool) (C N : ℕ) :
    (regular_visit_tester m₁ N).drawn =
        key_stream 0 (2 * (N : ℤ) - 1) benchmark_seed N ∧
      (bulk_visit_tester m₂ C N).drawn =
        key_stream 0 (2 * (N : ℤ) - 1) benchmark_seed N ∧
      (regular_visit_tester m₁ N).drawn = (bulk_visit_tester m₂ C N).drawn :=
  ⟨regular_tester_drawn m₁ N, bulk_tester_drawn m₂ C N,
    (regular_tester_drawn m₁ N).trans (bulk_tester_drawn m₂ C N).symm⟩

/-! ### Range of the drawn keys -/

theorem dist_draw_range (lo hi : ℤ) (hle : lo ≤ hi) (g : ℕ) :
    lo ≤ (dist_draw lo hi g).1 ∧ (dist_draw lo hi g).1 ≤ hi := by
  simp only [dist_draw]
  have ht : ((hi + 1 - lo).toNat : ℤ) = hi + 1 - lo :=
    Int.toNat_of_nonneg (by omega)
  have htpos : 0 < (hi + 1 - lo).toNat := by omega
  have hmod : (splitmix64_next g).1 % (hi + 1 - lo).toNat
      < (hi + 1 - lo).toNat := Nat.mod_lt _ htpos
  have hmod' : (((splitmix64_next g).1 % (hi + 1 - lo).toNat : ℕ) : ℤ)
      < ((hi + 1 - lo).toNat : ℤ) := by exact_mod_cast hmod
  have hnn : (0 : ℤ) ≤ (((splitmix64_next g).1 % (hi + 1 - lo).toNat : ℕ) : ℤ) :=
    Int.natCast_nonneg _
  omega

theorem key_stream_range (lo hi : ℤ) (hle : lo ≤ hi) :
    ∀ (n g : ℕ) (k : ℤ), k ∈ key_stream lo hi g n → lo ≤ k ∧ k ≤ hi := by
  intro n
  induction n with
  | zero => intro g k hk; simp [key_stream] at hk
  | succ n ih =>
    intro g k hk
    rw [key_stream] at hk
    rcases List.mem_cons.mp hk with h | h
    · rw [h]; exact dist_draw_range lo hi hle g
    · exact ih _ k h

/-- C4 (amended): for every dataset size `N ≥ 1`, every key drawn during a
strategy run lies in the closed range `[0, 2N-1]` — the distribution
`std::uniform_int_distribution<>{0, 2*N-1}` is bounded by the closed
interval `[0, 2N-1]`, not the half-open `[0, 2N-1)` — so every drawn key `k`
satisfies `0 ≤ k ≤ 2N-1`. -/
theorem drawn_keys_in_range (m₁ m₂ : ℤ → Bool) (C N : ℕ) (hN : 1 ≤ N) (k : ℤ)
    (hk : k ∈ (regular_visit_tester m₁ N).drawn ∨
      k ∈ (bulk_visit_tester m₂ C N).drawn) :
    0 ≤ k ∧ k ≤ 2 * (N : ℤ) - 1 := by
  have hle : (0 : ℤ) ≤ 2 * (N : ℤ) - 1 := by
    have h1 : (1 : ℤ) ≤ (N : ℤ) := by exact_mod_cast hN
    omega
  have hk' : k ∈ key_stream 0 (2 * (N : ℤ) - 1) benchmark_seed N := by
    rcases hk with h | h
    · rwa [regular_tester_drawn] at h
    · rwa [bulk_tester_drawn] at h
  exact key_stream_range 0 (2 * (N : ℤ) - 1) hle N benchmark_seed k hk'

/-- Witness for `drawn_keys_in_range`: at `N = 5` the fourth drawn key is 9,
which indeed lies in `[0, 2N-1] = [0, 9]`. -/
theorem drawn_keys_in_range_witness :
    0 ≤ (9 : ℤ) ∧ (9 : ℤ) ≤ 2 * ((5 : ℕ) : ℤ) - 1 :=
  drawn_keys_in_range (fun _ => false) (fun _ => false) 2 5 (by decide) 9
    (Or.inl (by decide))

/-- Counterexample to C4 as stated: the claim bounds every drawn key by
`2N-2` (the half-open range `[0, 2N-1)`), but the distribution is
constructed over the closed range `{0, 2*N-1}`; at `N = 5` the run draws
the key `9 = 2N-1 > 2N-2`. -/
theorem drawn_key_upper_bound_cex :
    (9 : ℤ) ∈ (regular_visit_tester (fun _ => false) 5).drawn ∧
      ¬((9 : ℤ) ≤ 2 * ((5 : ℕ) : ℤ) - 2) := by
  constructor
  · decide
  · decide

/-! ### Structure of the ranged visit calls issued by `bulk_visitor` -/

theorem bulk_calls_shape (m : ℤ → Bool) (C : ℕ) (hC : 1 ≤ C) :
    ∀ (ks : List ℤ) (v : BulkVisitor), v.buf.length < C →
      ((bulk_flush m (bulk_proc m C v ks)).calls).map List.length =
        v.calls.map List.length ++
          List.replicate ((v.buf.length + ks.length) / C) C ++
          [(v.buf.length + ks.length) % C] := by
  intro ks
  induction ks with
  | nil =>
    intro v hv
    simp [bulk_proc, bulk_flush, Nat.div_eq_of_lt hv, Nat.mod_eq_of_lt hv]
  | cons k ks ih =>
    intro v hv
    simp only [bulk_proc, List.foldl_cons] at ih ⊢
    rw [bulk_push_cases]
    split_ifs with hfull
    · rw [ih _ (by simpa using hC)]
      have h1 : v.buf.length + (ks.length + 1) = ks.length + C := by omega
      simp only [List.length_cons, List.length_nil, List.map_append,
        List.map_cons, List.map_nil, List.length_append, Nat.zero_add, h1,
        Nat.add_div_right _ (by omega : 0 < C), Nat.add_mod_right,
        List.replicate_succ]
      simp [hfull, List.append_assoc]
    · rw [ih _ (by
        simp only [List.length_append, List.length_cons, List.length_nil]
        omega)]
      simp only [List.length_append, List.length_cons, List.length_nil]
      have h1 : v.buf.length + 1 + ks.length = v.buf.length + (ks.length + 1) := by
        omega
      rw [h1]

/-- C3 (amended): for every buffer capacity `C ≥ 1` and every run of exactly
`k*C + r` keys (`0 ≤ r < C`) followed by one explicit flush, `bulk_visitor`
issues exactly `k` full-batch ranged visit calls of `C` keys each plus
exactly one trailing flush-issued call covering the `r` remaining keys.  The
trailing call is always issued: when `r = 0` (and in particular when
flushing an already-empty buffer) `flush()` still performs one ranged
`m.visit` call over the empty range, which adds 0 hits and leaves the
cursor at 0. -/
theorem bulk_calls_structure (m : ℤ → Bool) (C k r : ℕ) (hC : 1 ≤ C)
    (hr : r < C) (ks : List ℤ) (hlen : ks.length = k * C + r) :
    ((bulk_flush m (bulk_proc m C bulk_init ks)).calls).map List.length =
      List.replicate k C ++ [r] := by
  rw [bulk_calls_shape m C hC ks bulk_init (by simp [bulk_init]; omega)]
  have hdiv : (k * C + r) / C = k := by
    rw [mul_comm, Nat.mul_add_div (by omega), Nat.div_eq_of_lt hr]
    rfl
  have hmod : (k * C + r) % C = r := by
    rw [mul_comm, Nat.mul_add_mod, Nat.mod_eq_of_lt hr]
  simp [bulk_init, hlen, hdiv, hmod]

/-- Witness for `bulk_calls_structure`: capacity 2, three keys
(`k = 1`, `r = 1`): one full call of 2 keys plus a trailing call of 1 key. -/
theorem bulk_calls_structure_witness :
    ((bulk_flush (fun _ => false)
        (bulk_proc (fun _ => false) 2 bulk_init [5, 6, 7])).calls).map
      List.length = List.replicate 1 2 ++ [1] :=
  bulk_calls_structure (fun _ => false) 2 1 1 (by decide) (by decide) [5, 6, 7]
    (by decide)

/-- Counterexample to C3 as stated: with capacity `C = 2` and a run of
exactly 2 keys (`k = 1`, `r = 0`) followed by the explicit flush, the code
issues 2 ranged visit calls — the full batch plus a trailing empty-range
call — not the claimed 1 (zero trailing calls when `r = 0`); likewise
`flush()` on an already-empty buffer issues 1 ranged visit call, not 0. -/
theorem bulk_flush_call_count_cex :
    ((bulk_flush (fun _ => false)
        (bulk_proc (fun _ => false) 2 bulk_init [0, 1])).calls).length = 2 ∧
      (2 : ℕ) ≠ 1 ∧
      ((bulk_flush (fun _ => false) bulk_init).calls).length = 1 ∧
      (1 : ℕ) ≠ 0 := by
  refine ⟨by decide, by decide, by decide, by decide⟩

/-! ### Arbitrary interleavings of `operator()` and `flush()` (cursor
invariant) -/

/-- One externally observable call on a `bulk_visitor`: `operator()` with a
drawn key, or `flush()`. -/
inductive BulkOp where
  | call (k : ℤ) : BulkOp
  | flush : BulkOp

/-- Apply one call to a `bulk_visitor`. -/
def bulk_apply (m : ℤ → Bool) (C : ℕ) (v : BulkVisitor) : BulkOp → BulkVisitor
  | BulkOp.call k => bulk_push m C v k
  | BulkOp.flush => bulk_flush m v

theorem bulk_apply_buf_lt (m : ℤ → Bool) (C : ℕ) (hC : 1 ≤ C)
    (v : BulkVisitor) (hv : v.buf.length < C) :
    ∀ op, (bulk_apply m C v op).buf.length < C := by
  intro op
  cases op with
  | flush => simpa [bulk_apply, bulk_flush] using hC
  | call k =>
    simp only [bulk_apply]
    rw [bulk_push_cases]
    split_ifs with hfull
    · simpa using hC
    · simp only [List.length_append, List.length_cons, List.length_nil]
      omega

/-- C9: starting from a freshly constructed `bulk_visitor`, after every
finite sequence of `operator()` and `flush()` calls the buffer cursor `i`
satisfies `0 ≤ i < C` (`operator()` flushes as soon as the buffer becomes
full and `flush()` resets the cursor to 0), so the write `keys[i++]` never
indexes outside the fixed-capacity array. -/
theorem bulk_cursor_invariant (m : ℤ → Bool) (C : ℕ) (hC : 1 ≤ C)
    (ops : List BulkOp) :
    ((ops.foldl (bulk_apply m C) bulk_init).buf).length < C := by
  have main : ∀ (ops : List BulkOp) (v : BulkVisitor), v.buf.length < C →
      ((ops.foldl (bulk_apply m C) v).buf).length < C := by
    intro ops
    induction ops with
    | nil => intro v hv; exact hv
    | cons op ops ih =>
      intro v hv
      exact ih _ (bulk_apply_buf_lt m C hC v hv op)
  exact main ops bulk_init (by simp [bulk_init]; omega)

/-- Witness for `bulk_cursor_invariant`: capacity 2, a mixed sequence of
visits and flushes. -/
theorem bulk_cursor_invariant_witness :
    ((([BulkOp.call 5, BulkOp.flush, BulkOp.call 3,
        BulkOp.call 4]).foldl (bulk_apply (fun _ => false) 2)
      bulk_init).buf).length < 2 :=
  bulk_cursor_invariant (fun _ => false) 2 (by decide)
    [BulkOp.call 5, BulkOp.flush, BulkOp.call 3, BulkOp.call 4]

/-! ### Monotonicity and bounds of the hit-count accumulator -/

theorem bulk_push_res_le (m : ℤ → Bool) (C : ℕ) (v : BulkVisitor) (k : ℤ) :
    v.res ≤ (bulk_push m C v k).res := by
  rw [bulk_push_cases]
  split_ifs
  · have : (0 : ℤ) ≤ visit_bulk m (v.buf ++ [k]) := Int.natCast_nonneg _
    simp only []
    omega
  · exact le_refl _

theorem bulk_proc_res_le (m : ℤ → Bool) (C : ℕ) :
    ∀ (ks : List ℤ) (v : BulkVisitor), v.res ≤ (bulk_proc m C v ks).res := by
  intro ks
  induction ks with
  | nil => intro v; exact le_refl _
  | cons k ks ih =>
    intro v
    simp only [bulk_proc, List.foldl_cons] at ih ⊢
    exact le_trans (bulk_push_res_le m C v k) (ih _)

/-- C10: under the container contract (a single-key visit reports 0 or 1 and
a ranged visit over `j` keys reports between 0 and `j` hits — which the
membership model satisfies by construction), both strategies keep their
accumulated hit count `res` nondecreasing across calls, and after processing
`n` keys followed by the final flush (a no-op for `regular_visitor`) the
final `res` satisfies `0 ≤ res ≤ n`. -/
theorem res_monotone_bounded (m : ℤ → Bool) (C : ℕ) (hC : 1 ≤ C)
    (l₁ l₂ : List ℤ) :
    (regular_proc m regular_init l₁).res ≤
        (regular_proc m regular_init (l₁ ++ l₂)).res ∧
      (bulk_proc m C bulk_init l₁).res ≤
        (bulk_proc m C bulk_init (l₁ ++ l₂)).res ∧
      (∀ v : BulkVisitor, v.res ≤ (bulk_flush m v).res) ∧
      0 ≤ (regular_proc m regular_init (l₁ ++ l₂)).res ∧
      (regular_proc m regular_init (l₁ ++ l₂)).res ≤ ((l₁ ++ l₂).length : ℤ) ∧
      0 ≤ (bulk_flush m (bulk_proc m C bulk_init (l₁ ++ l₂))).res ∧
      (bulk_flush m (bulk_proc m C bulk_init (l₁ ++ l₂))).res ≤
        ((l₁ ++ l₂).length : ℤ) := by
  have hreg : ∀ l : List ℤ, (regular_proc m regular_init l).res =
      (l.countP m : ℤ) := by
    intro l
    rw [regular_proc_res]
    simp [regular_init]
  have hbulkfin : (bulk_flush m (bulk_proc m C bulk_init (l₁ ++ l₂))).res =
      ((l₁ ++ l₂).countP m : ℤ) := by
    rw [bulk_flush_proc_res m C hC _ bulk_init (by simp [bulk_init]; omega)]
    simp [bulk_init, visit_bulk]
  refine ⟨?_, ?_, ?_, ?_, ?_, ?_, ?_⟩
  · rw [hreg, hreg, List.countP_append]
    push_cast
    have : (0 : ℤ) ≤ (l₂.countP m : ℤ) := Int.natCast_nonneg _
    omega
  · simp only [bulk_proc, List.foldl_append]
    exact bulk_proc_res_le m C l₂ _
  · intro v
    have : (0 : ℤ) ≤ visit_bulk m v.buf := Int.natCast_nonneg _
    simp only [bulk_flush]
    omega
  · rw [hreg]; exact Int.natCast_nonneg _
  · rw [hreg]
    exact_mod_cast List.countP_le_length m
  · rw [hbulkfin]; exact Int.natCast_nonneg _
  · rw [hbulkfin]
    exact_mod_cast List.countP_le_length m

/-- Witness for `res_monotone_bounded`: capacity 2, keys `[0, 1]` then
`[5]`, dataset `{0, 1, 2}`. -/
theorem res_monotone_bounded_witness :
    (regular_proc (fun x => decide (0 ≤ x ∧ x < 3)) regular_init [0, 1]).res ≤
        (regular_proc (fun x => decide (0 ≤ x ∧ x < 3)) regular_init
          ([0, 1] ++ [5])).res ∧
      (bulk_proc (fun x => decide (0 ≤ x ∧ x < 3)) 2 bulk_init [0, 1]).res ≤
        (bulk_proc (fun x => decide (0 ≤ x ∧ x < 3)) 2 bulk_init
          ([0, 1] ++ [5])).res ∧
      (∀ v : BulkVisitor, v.res ≤
        (bulk_flush (fun x => decide (0 ≤ x ∧ x < 3)) v).res) ∧
      0 ≤ (regular_proc (fun x => decide (0 ≤ x ∧ x < 3)) regular_init
          ([0, 1] ++ [5])).res ∧
      (regular_proc (fun x => decide (0 ≤ x ∧ x < 3)) regular_init
          ([0, 1] ++ [5])).res ≤ ((([0, 1] ++ [5]) : List ℤ).length : ℤ) ∧
      0 ≤ (bulk_flush (fun x => decide (0 ≤ x ∧ x < 3))
          (bulk_proc (fun x => decide (0 ≤ x ∧ x < 3)) 2 bulk_init
            ([0, 1] ++ [5]))).res ∧
      (bulk_flush (fun x => decide (0 ≤ x ∧ x < 3))
          (bulk_proc (fun x => decide (0 ≤ x ∧ x < 3)) 2 bulk_init
            ([0, 1] ++ [5]))).res ≤ ((([0, 1] ++ [5]) : List ℤ).length : ℤ) :=
  res_monotone_bounded (fun x => decide (0 ≤ x ∧ x < 3)) 2 (by decide)
    [0, 1] [5]

/-! ### The benchmark driver's dataset construction (`visit_test`,
lines 148-151)

`boost::concurrent_flat_map<int,int> m; m.reserve(std::size_t(N));
 for (int i = 0; i < N; ++i) m.insert({i, i});`

The container is embedded by its reserved capacity and its entry list;
`insert` adds the pair only if the key is not already present (the
container's documented duplicate behaviour — irrelevant here since the
driver's keys are distinct). -/

/-- The container under test: reserved capacity plus inserted entries. -/
structure Container where
  reserved : ℕ
  entries : List (ℤ × ℤ)

/-- Key-presence test of the container. -/
def Container.mem_key (c : Container) (k : ℤ) : Bool :=
  c.entries.any (fun p => decide (p.1 = k))

/-- `m.insert({k, v})`: adds the entry when the key is absent. -/
def Container.insert (c : Container) (k v : ℤ) : Container :=
  if c.mem_key k then c else { c with entries := c.entries ++ [(k, v)] }

/-- A freshly constructed container. -/
def empty_container : Container := ⟨0, []⟩

/-- `m.reserve(n)`: pre-sizes the container. -/
def Container.reserve (c : Container) (n : ℕ) : Container :=
  { c with reserved := n }

/-- The dataset the driver builds for size `N`: a fresh container, reserved
to `N`, with keys `0..N-1` each inserted mapped to itself. -/
def build_dataset (N : ℕ) : Container :=
  (List.range N).foldl (fun c (i : ℕ) => c.insert (i : ℤ) (i : ℤ))
    (empty_container.reserve N)

/-- The driver's fixed sweep of dataset sizes (line 148). -/
def sweep_sizes : List ℕ := [3000, 25000, 600000, 10000000]

theorem mem_key_iff (c : Container) (k : ℤ) :
    c.mem_key k = true ↔ k ∈ c.entries.map Prod.fst := by
  simp [Container.mem_key, List.any_eq_true, List.mem_map,
    decide_eq_true_eq]

theorem foldl_insert_entries :
    ∀ (l : List ℕ) (c : Container), l.Nodup →
      (∀ i ∈ l, (i : ℤ) ∉ c.entries.map Prod.fst) →
      (l.foldl (fun c (i : ℕ) => c.insert (i : ℤ) (i : ℤ)) c).entries =
        c.entries ++ l.map (fun i : ℕ => ((i : ℤ), (i : ℤ))) := by
  intro l
  induction l with
  | nil => intro c _ _; simp
  | cons i l ih =>
    intro c hnd hfresh
    simp only [List.foldl_cons]
    have hci : ¬(c.mem_key (i : ℤ) = true) := by
      rw [mem_key_iff]
      exact hfresh i (List.mem_cons_self i l)
    have hc1 : c.insert (i : ℤ) (i : ℤ) =
        { c with entries := c.entries ++ [((i : ℤ), (i : ℤ))] } := by
      rw [Container.insert, if_neg hci]
    rw [hc1, ih]
    · simp [List.append_assoc]
    · exact (List.nodup_cons.mp hnd).2
    · intro j hj
      simp only [List.map_append, List.mem_append, List.map_cons,
        List.map_nil, List.mem_singleton]
      refine not_or.mpr ⟨hfresh j (List.mem_cons_of_mem _ hj), ?_⟩
      have hne : j ≠ i := fun he => (List.nodup_cons.mp hnd).1 (he ▸ hj)
      exact fun he => hne (by exact_mod_cast he)

theorem foldl_insert_reserved :
    ∀ (l : List ℕ) (c : Container),
      (l.foldl (fun c (i : ℕ) => c.insert (i : ℤ) (i : ℤ)) c).reserved =
        c.reserved := by
  intro l
  induction l with
  | nil => intro c; rfl
  | cons i l ih =>
    intro c
    simp only [List.foldl_cons]
    rw [ih]
    rw [Container.insert]
    split_ifs <;> rfl

theorem build_dataset_entries (N : ℕ) :
    (build_dataset N).entries =
      (List.range N).map (fun i : ℕ => ((i : ℤ), (i : ℤ))) := by
  rw [build_dataset, foldl_insert_entries (List.range N) _ (List.nodup_range N)]
  · simp [empty_container, Container.reserve]
  · intro i _
    simp [empty_container, Container.reserve]

/-- C8: for each dataset size `N` of the fixed sweep
`{3000, 25000, 600000, 10000000}`, the driver builds a fresh container,
pre-reserves capacity for `N` entries, and inserts exactly the `N` distinct
keys `0..N-1`, each mapped to itself, before the timed runs for that size. -/
theorem driver_dataset_spec (N : ℕ) (h : N ∈ sweep_sizes) :
    (build_dataset N).reserved = N ∧
      (build_dataset N).entries =
        (List.range N).map (fun i : ℕ => ((i : ℤ), (i : ℤ))) ∧
      (build_dataset N).entries.length = N ∧
      ((build_dataset N).entries.map Prod.fst).Nodup ∧
      sweep_sizes = [3000, 25000, 600000, 10000000] := by
  refine ⟨?_, build_dataset_entries N, ?_, ?_, rfl⟩
  · rw [build_dataset, foldl_insert_reserved]
    rfl
  · rw [build_dataset_entries]
    simp
  · rw [build_dataset_entries, List.map_map]
    have hcomp : (Prod.fst ∘ fun i : ℕ => ((i : ℤ), (i : ℤ))) =
        fun i : ℕ => (i : ℤ) := rfl
    rw [hcomp]
    exact (List.nodup_range N).map (fun a b hab => by exact_mod_cast hab)

/-- Witness for `driver_dataset_spec` at the first sweep size, `N = 3000`. -/
theorem driver_dataset_spec_witness :
    (build_dataset 3000).reserved = 3000 ∧
      (build_dataset 3000).entries =
        (List.range 3000).map (fun i : ℕ => ((i : ℤ), (i : ℤ))) ∧
      (build_dataset 3000).entries.length = 3000 ∧
      ((build_dataset 3000).entries.map Prod.fst).Nodup ∧
      sweep_sizes = [3000, 25000, 600000, 10000000] :=
  driver_dataset_spec 3000 (by decide)
